import Mathlib

/-!
Shallow embedding of the chord_solver engine (`src/lib.ts`).

JavaScript arrays are modelled as `List`, JS `Map` tables as association
lists with `List.lookup`, thrown exceptions as `Except String`, and the JS
`%` operator on possibly-negative integers as `Int.tmod` (JS remainder
truncates toward zero).  Functions that mutate the caller's array
(`chordInfo` uses `splice`) additionally return the caller's array as it is
left after the call, so mutation is observable in the model.
-/

namespace ChordSolver

/-- A parsed note, mirroring the `Note` class of `src/lib.ts`:
the verbatim input text, the diatonic letter index (C=0 … B=6), the pitch
class of the bare letter, and the letter's pitch class shifted by the
accidentals (the source applies no `mod 12` to this sum, so it is an
arbitrary integer in the model). -/
structure Note where
  name : String
  letter_index : Nat
  base_class : Nat
  pitch_class : Int
deriving DecidableEq, Repr

/-- The `BASE_NOTES` map of `src/lib.ts`: letter ↦ (base pitch class, letter index). -/
def BASE_NOTES : List (Char × (Nat × Nat)) :=
  [('C', (0, 0)), ('D', (2, 1)), ('E', (4, 2)), ('F', (5, 3)),
   ('G', (7, 4)), ('A', (9, 5)), ('B', (11, 6))]

def baseNotesGet (c : Char) : Option (Nat × Nat) := BASE_NOTES.lookup c

/-- The `INTERVALS` map of `src/lib.ts`. -/
def INTERVALS : List (Int × String) :=
  [(0, "Unison"), (1, "Minor second"), (2, "Major second"), (3, "Minor third"),
   (4, "Major third"), (5, "Perfect fourth"), (6, "Tritone"), (7, "Perfect fifth"),
   (8, "Minor sixth"), (9, "Major sixth"), (10, "Minor seventh"), (11, "Major seventh")]

def intervalsGet (d : Int) : Option String := INTERVALS.lookup d

/-- The `CHORDS` map of `src/lib.ts`: comma-joined semitone gaps ↦ chord quality. -/
def CHORDS : List (String × String) :=
  [("4,3", "major triad"), ("3,4", "minor triad"), ("3,3", "diminished triad"),
   ("4,4", "augmented triad"),
   ("4,3,4", "major 7th"), ("4,3,3", "dominant 7th"), ("3,4,3", "minor 7th"),
   ("3,4,4", "minor major 7th"), ("3,3,3", "half diminished 7th"),
   ("3,3,2", "fully diminished 7th")]

def chordsGet (k : String) : Option String := CHORDS.lookup k

/-- The regex match `/(\S)(\S*)/` used by `Note.parse`: the first
non-whitespace character and the maximal run of non-whitespace characters
following it; `none` models a null match (only possible for a token that is
empty or all whitespace, which `parseNotes` never produces). -/
def reMatch : List Char → Option (Char × List Char)
  | [] => none
  | c :: cs =>
    if c.isWhitespace then reMatch cs
    else some (c, cs.takeWhile (fun d => !d.isWhitespace))

/-- `Note.parse` of `src/lib.ts`: letter check first, then accidental
check, then `pitch_class = base_class + (#count - bcount)` with no
reduction modulo 12. -/
def Note.parse (unparsed_note : String) : Except String Note :=
  match reMatch unparsed_note.data with
  | none => Except.error "TypeError: null match"
  | some (letter, accidentals) =>
    match baseNotesGet letter with
    | none => Except.error ("Invalid note letter in \"" ++ unparsed_note ++ "\"")
    | some (base_class, letter_index) =>
      if accidentals.any (fun c => c != '#' && c != 'b') then
        Except.error ("Invalid accidentals in \"" ++ unparsed_note ++ "\"")
      else
        let shift : Int := accidentals.foldl (fun acc c => acc + (if c = '#' then 1 else -1)) 0
        Except.ok ⟨unparsed_note, letter_index, base_class, (base_class : Int) + shift⟩

/-- `Note.prototype.distance`: `(other.pitch_class - this.pitch_class + 12) % 12`
with the JS truncated remainder. -/
def Note.distance (a other : Note) : Int :=
  (other.pitch_class - a.pitch_class + 12).tmod 12

/-- Accumulator-based splitter: `acc` holds the reversed characters of the
token currently being read. -/
def tokenizeAux : List Char → List Char → List (List Char)
  | [], acc => if acc.isEmpty then [] else [acc.reverse]
  | c :: cs, acc =>
    if c.isWhitespace then
      if acc.isEmpty then tokenizeAux cs [] else acc.reverse :: tokenizeAux cs []
    else tokenizeAux cs (c :: acc)

/-- The tokens produced by `parseNotes`' regex `/(\S+)\s*/g`: the maximal
runs of non-whitespace characters, in order. -/
def tokenize (l : List Char) : List (List Char) :=
  tokenizeAux l []

/-- `parseNotes` of `src/lib.ts`: split on whitespace, parse each token in
order, propagating the first parse error (the thrown exception). -/
def parseNotes (unparsed_notes : String) : Except String (List Note) :=
  (tokenize unparsed_notes.data).mapM (fun t => Note.parse (String.mk t))

/-- `nth` of `src/lib.ts`: English ordinal suffix. -/
def nth (n : Nat) : String :=
  let s := toString n
  if n = 1 then s ++ "st"
  else if n = 2 then s ++ "nd"
  else if n = 3 then s ++ "rd"
  else s ++ "th"

/-- One step of the in-place rotation `indices.unshift(indices.pop()!)`:
move the last element to the front. -/
def rotR {α : Type} : List α → List α
  | [] => []
  | l@(_ :: _) =>
    match l.getLast? with
    | none => l
    | some x => x :: l.dropLast

/-- The re-basing `indices.map(i => (i - s + 7) % 7)` performed by
`inversion`, where `s` is the current first index. -/
def rebaseInt : List Nat → List Int
  | [] => []
  | s :: rest => (s :: rest).map (fun i => ((i : Int) - (s : Int) + 7).tmod 7)

/-- The target pattern `b = [0, 2, 4, …]` of `inversion`
(`Array.from(Array(n).keys()).map((_, k) => k * 2)`). -/
def stackPattern (n : Nat) : List Int :=
  (List.range n).map (fun k => (k : Int) * 2)

/-- The loop body of `inversion`: starting from the current index list,
try up to `fuel` right-rotations, returning the loop counter of the first
arrangement whose re-based indices equal `b`. -/
def invGo (b : List Int) : Nat → List Nat → Nat → Option Nat
  | 0, _, _ => none
  | fuel + 1, idxs, i =>
    if rebaseInt idxs = b then some i
    else invGo b fuel (rotR idxs) (i + 1)

/-- `inversion` of `src/lib.ts`; the JS `-1` sentinel is modelled as `none`. -/
def inversionIdx (notes : List Note) : Option Nat :=
  let indices := notes.map (fun n => n.letter_index)
  invGo (stackPattern indices.length) indices.length indices 0

/-- `intervals` of `src/lib.ts`: consecutive semitone gaps
`(b.pitch_class - a.pitch_class + 12) % 12` (JS truncated remainder). -/
def intervalsOf : List Note → List Int
  | a :: b :: rest => (b.pitch_class - a.pitch_class + 12).tmod 12 :: intervalsOf (b :: rest)
  | _ => []

/-- `Array.prototype.join()` on the gap list: comma-joined decimal strings. -/
def gapsKey (gs : List Int) : String :=
  String.intercalate "," (gs.map toString)

/-- `fixed[0].name` (the matched rotation is never empty when read). -/
def headName : List Note → String
  | [] => ""
  | n :: _ => n.name

/-- `chordInfo` of `src/lib.ts`.  The second component is the caller's
array as the call leaves it: `notes.splice(notes.length - i, i)` removes
the last `i` notes from the caller's array before the table lookup, so the
caller keeps only the first `length - i` notes whenever a diatonic
rotation `i` was found (on success and on the subsequent table-miss
failure alike). -/
def chordInfo (notes : List Note) : Except String (String × List String) × List Note :=
  match inversionIdx notes with
  | none => (Except.error "Invalid chord", notes)
  | some i =>
    let kept := notes.take (notes.length - i)
    let tail := notes.drop (notes.length - i)
    let fixed := tail ++ kept
    match chordsGet (gapsKey (intervalsOf fixed)) with
    | none => (Except.error "Invalid chord", kept)
    | some chord_type =>
      let name := headName fixed ++ " " ++ chord_type
      let components := fixed.map (fun n => n.name)
      if i = 0 then (Except.ok (name, components), kept)
      else (Except.ok (name ++ " (" ++ nth i ++ " inversion)", components), kept)

/-- `processNotes` of `src/lib.ts`.  The interval name of the two-note
case is an `Option` because the source reads `INTERVALS.get(...)!`, which
yields `undefined` when the distance is not a table key; the second
component of the pair is the caller's array as the call leaves it. -/
def processNotes (notes : List Note) :
    Except String (Option String × Option (List String)) × List Note :=
  match notes with
  | [a] => (Except.ok (some a.name, none), notes)
  | [a, b] => (Except.ok (intervalsGet (Note.distance a b), none), notes)
  | [_, _, _] | [_, _, _, _] =>
    match chordInfo notes with
    | (Except.ok (n, c), st) => (Except.ok (some n, some c), st)
    | (Except.error e, st) => (Except.error e, st)
  | _ => (Except.error "Only up to four notes (seventh chords) supported", notes)

/-- The `parseNotes` → `processNotes` pipeline used by the app on the
input string (result component only). -/
def resolve (s : String) : Except String (Option String × Option (List String)) :=
  match parseNotes s with
  | Except.error e => Except.error e
  | Except.ok notes => (processNotes notes).1

/-- The arrangement `chordInfo` builds for inversion index `i`:
`tail.concat(notes)` after `notes.splice(notes.length - i, i)`, i.e. the
last `i` notes moved to the front. -/
def rotFix (i : Nat) (notes : List Note) : List Note :=
  notes.drop (notes.length - i) ++ notes.take (notes.length - i)

/-- Rotation `r` of the letter-index list `l` re-bases, relative to its
first element, to the stacked-thirds pattern `[0, 2, 4, …]` checked by
`inversion`. -/
def diaAt (r : Nat) (l : List Nat) : Prop :=
  rebaseInt (rotR^[r] l) = stackPattern l.length

instance (r : Nat) (l : List Nat) : Decidable (diaAt r l) :=
  inferInstanceAs (Decidable (_ = _))

/-- Rotation `r` of the note sequence is both diatonically stacked (the
letter indices re-base to the stepwise-thirds pattern) and a semitone-gap
key present in the chord table. -/
def bothAt (r : Nat) (notes : List Note) : Prop :=
  diaAt r (notes.map (fun n => n.letter_index))
  ∧ (chordsGet (gapsKey (intervalsOf (rotR^[r] notes)))).isSome

/-- Letter characters and base pitch classes by letter index (C=0 … B=6),
used to spell constructed notes. -/
def letterData (k : Nat) : Char × Nat :=
  [('C', 0), ('D', 2), ('E', 4), ('F', 5), ('G', 7), ('A', 9), ('B', 11)].getD k ('C', 0)

/-- Modelled from the spec: the canonical spelling of the note with letter
index `li` (0–6) and pitch class `pc` — the letter followed by enough `#`
or `b` accidentals to shift the letter's base class to `pc` (§8 round
trip, "constructing its canonical note spelling"; the repository contains
no such constructor, only the resolver). -/
def spellNote (li : Nat) (pc : Int) : Note :=
  let p := letterData li
  let shift : Int := pc - (p.2 : Int)
  let acc := if 0 ≤ shift then String.mk (List.replicate shift.toNat '#')
    else String.mk (List.replicate (-shift).toNat 'b')
  ⟨String.mk [p.1] ++ acc, li, p.2, pc⟩

/-- Modelled from the spec: the chord members above the root, each one
diatonic third (two letter steps) above the previous with the pitch class
advanced by the shape's next semitone gap. -/
def buildRest (li : Nat) (pc : Int) : List Int → List Note
  | [] => []
  | g :: gs =>
    spellNote ((li + 2) % 7) (pc + g) :: buildRest ((li + 2) % 7) (pc + g) gs

/-- Modelled from the spec: the canonical root-position note spelling of
the chord shape with semitone gaps `gaps` built on `root` (§8 round trip). -/
def canonicalChord (root : Note) (gaps : List Int) : List Note :=
  root :: buildRest root.letter_index root.pitch_class gaps

/-- The chord shapes of the `CHORDS` table as semitone-gap lists paired
with their quality names. -/
def SHAPES : List (List Int × String) :=
  [([4, 3], "major triad"), ([3, 4], "minor triad"), ([3, 3], "diminished triad"),
   ([4, 4], "augmented triad"),
   ([4, 3, 4], "major 7th"), ([4, 3, 3], "dominant 7th"), ([3, 4, 3], "minor 7th"),
   ([3, 4, 4], "minor major 7th"), ([3, 3, 3], "half diminished 7th"),
   ([3, 3, 2], "fully diminished 7th")]

/-! ### Helper lemmas -/

/-- `SHAPES` enumerates exactly the `CHORDS` table: joining each gap list
into its comma key recovers the source map. -/
lemma chords_eq_shapes : CHORDS = SHAPES.map (fun p => (gapsKey p.1, p.2)) := by
  rfl

/-- The only error `chordInfo` can produce is `"Invalid chord"`. -/
lemma chordInfo_error_msg (notes : List Note) (e : String)
    (h : (chordInfo notes).1 = Except.error e) : e = "Invalid chord" := by
  unfold chordInfo at h
  dsimp only at h
  repeat' split at h
  all_goals simp_all

/-- On a three- or four-element list, `processNotes` passes the list to
`chordInfo` and repackages its result. -/
lemma processNotes_chord (notes : List Note)
    (hlen : notes.length = 3 ∨ notes.length = 4) :
    (processNotes notes).1 =
      match (chordInfo notes).1 with
      | Except.ok (n, c) => Except.ok (some n, some c)
      | Except.error e => Except.error e := by
  rcases hlen with h | h
  · obtain ⟨a, b, c, rfl⟩ := List.length_eq_three.mp h
    show (match chordInfo [a, b, c] with
      | (Except.ok (n, c), st) => (Except.ok (some n, some c), st)
      | (Except.error e, st) => (Except.error e, st)).1 = _
    rcases hc : chordInfo [a, b, c] with ⟨r | r, st⟩ <;> simp
  · match notes, h with
    | [a, b, c, d], _ =>
      show (match chordInfo [a, b, c, d] with
        | (Except.ok (n, c), st) => (Except.ok (some n, some c), st)
        | (Except.error e, st) => (Except.error e, st)).1 = _
      rcases hc : chordInfo [a, b, c, d] with ⟨r | r, st⟩ <;> simp

/-! ### Claim C1 -/

/-- C1: the claim that `Note.parse` reduces the pitch class modulo 12 into
[0,11] fails on the code: `parse` stores `base_class + accidentalShift`
unreduced, so `"B#"` yields pitch class 12 (the claim predicts
`(11 + 1) mod 12 = 0`) and `"Cb"` yields −1 (the claim predicts 11). -/
theorem parse_pitch_class_unreduced :
    Note.parse "B#" = Except.ok ⟨"B#", 6, 11, 12⟩
    ∧ Note.parse "Cb" = Except.ok ⟨"Cb", 0, 0, -1⟩
    ∧ (((11 : Int) + 1) % 12 = 0 ∧ ((0 : Int) - 1) % 12 = 11) := by
  refine ⟨rfl, rfl, by decide, by decide⟩

/-! ### Claim C2 -/

/-- C2 counterexample: on the parsed notes of "E G C" the chord search
finds diatonic rotation index 1 and `splice` removes the last note from
the caller's array, so after the call the caller's array is `[E, G]`, not
the original `[E, G, C]`. -/
theorem processNotes_mutates_caller :
    parseNotes "E G C" =
      Except.ok [⟨"E", 2, 4, 4⟩, ⟨"G", 4, 7, 7⟩, ⟨"C", 0, 0, 0⟩]
    ∧ (processNotes [⟨"E", 2, 4, 4⟩, ⟨"G", 4, 7, 7⟩, ⟨"C", 0, 0, 0⟩]).2
      = [⟨"E", 2, 4, 4⟩, ⟨"G", 4, 7, 7⟩]
    ∧ (processNotes [⟨"E", 2, 4, 4⟩, ⟨"G", 4, 7, 7⟩, ⟨"C", 0, 0, 0⟩]).2
      ≠ [⟨"E", 2, 4, 4⟩, ⟨"G", 4, 7, 7⟩, ⟨"C", 0, 0, 0⟩] := by
  refine ⟨by rfl, by rfl, by decide⟩

/-- The caller's array after `chordInfo`: unchanged when no diatonic
rotation exists, truncated to the first `length − i` notes when the
inversion search returns `i` (the `splice` happens before the chord-table
lookup, so this holds on success and on failure alike). -/
lemma chordInfo_snd (notes : List Note) :
    (chordInfo notes).2 =
      match inversionIdx notes with
      | none => notes
      | some i => notes.take (notes.length - i) := by
  unfold chordInfo
  dsimp only
  repeat' split
  all_goals simp_all

/-- C2 amended: `processNotes` leaves the caller's array unchanged except
on the three- and four-note chord path, where finding diatonic rotation
index `i` removes the last `i` notes from the caller's array. -/
theorem processNotes_array_effect (notes : List Note) :
    (processNotes notes).2 =
      if notes.length = 3 ∨ notes.length = 4 then
        match inversionIdx notes with
        | none => notes
        | some i => notes.take (notes.length - i)
      else notes := by
  match notes with
  | [] => simp [processNotes]
  | [a] => simp [processNotes]
  | [a, b] => simp [processNotes]
  | [a, b, c] =>
    rw [if_pos (show [a, b, c].length = 3 ∨ [a, b, c].length = 4 from Or.inl rfl),
      ← chordInfo_snd]
    show (match chordInfo [a, b, c] with
      | (Except.ok (n, c), st) => (Except.ok (some n, some c), st)
      | (Except.error e, st) => (Except.error e, st)).2 = _
    rcases hc : chordInfo [a, b, c] with ⟨r | r, st⟩ <;> simp
  | [a, b, c, d] =>
    rw [if_pos (show [a, b, c, d].length = 3 ∨ [a, b, c, d].length = 4 from Or.inr rfl),
      ← chordInfo_snd]
    show (match chordInfo [a, b, c, d] with
      | (Except.ok (n, c), st) => (Except.ok (some n, some c), st)
      | (Except.error e, st) => (Except.error e, st)).2 = _
    rcases hc : chordInfo [a, b, c, d] with ⟨r | r, st⟩ <;> simp
  | a :: b :: c :: d :: e :: tl =>
    rw [if_neg (by simp only [List.length_cons]; omega)]
    rfl

/-! ### Claim C3 -/

/-- `invGo` only returns counter values between the starting counter and
the starting counter plus the remaining fuel. -/
lemma invGo_some_bound (b : List Int) :
    ∀ (fuel : Nat) (idxs : List Nat) (j i : Nat),
      invGo b fuel idxs j = some i → j ≤ i ∧ i < j + fuel := by
  intro fuel
  induction fuel with
  | zero => intro idxs j i h; simp [invGo] at h
  | succ n ih =>
    intro idxs j i h
    simp only [invGo] at h
    split at h
    · have hji : j = i := Option.some.inj h
      omega
    · have := ih (rotR idxs) (j + 1) i h
      omega

/-- The rotation index found by `inversion` is below the list length. -/
lemma inversionIdx_lt (notes : List Note) (i : Nat)
    (h : inversionIdx notes = some i) : i < notes.length := by
  unfold inversionIdx at h
  dsimp only at h
  have hb := invGo_some_bound _ _ _ _ _ h
  simp only [List.length_map] at hb
  omega

/-- Output of `chordInfo` when the inversion search returns `i` and the
chord table lookup on the rotated arrangement succeeds. -/
lemma chordInfo_eq_of_some (notes : List Note) (i : Nat) (q : String)
    (hi : inversionIdx notes = some i)
    (hq : chordsGet (gapsKey (intervalsOf
      (notes.drop (notes.length - i) ++ notes.take (notes.length - i)))) = some q) :
    (chordInfo notes).1 = Except.ok
      ((if i = 0 then
          headName (notes.drop (notes.length - i) ++ notes.take (notes.length - i)) ++ " " ++ q
        else
          headName (notes.drop (notes.length - i) ++ notes.take (notes.length - i)) ++ " " ++ q
            ++ " (" ++ nth i ++ " inversion)"),
       (notes.drop (notes.length - i) ++ notes.take (notes.length - i)).map
         (fun n => n.name)) := by
  unfold chordInfo
  rw [hi]
  dsimp only
  rw [hq]
  dsimp only
  by_cases h0 : i = 0 <;> simp [h0]

/-- For three- and four-element lists, the `splice`-built arrangement for
index `i` equals `i` one-step right-rotations of the original list. -/
lemma rotFix_eq_iter (notes : List Note) (i : Nat)
    (hlen : notes.length = 3 ∨ notes.length = 4) (hlt : i < notes.length) :
    rotFix i notes = rotR^[i] notes := by
  rcases hlen with h3 | h4
  · obtain ⟨a, b, c, rfl⟩ := List.length_eq_three.mp h3
    simp only [List.length_cons, List.length_nil] at hlt
    interval_cases i <;> rfl
  · match notes, h4 with
    | [a, b, c, d], _ =>
      simp only [List.length_cons, List.length_nil] at hlt
      interval_cases i <;> rfl

/-- C3: when the inversion search matches at rotation index `i` and the
chord table recognizes the rotated arrangement with quality `q`, the name
is `<root.name> <q>` exactly for `i = 0` and otherwise carries the
` (<ordinal(i)> inversion)` suffix; the components are the names of the
matched rotation, root first, and that arrangement is `i` one-step
rotations of the original order; in particular "E G C" resolves to
"C major triad (1st inversion)" with components C, E, G. -/
theorem chord_name_inversion (notes : List Note) (i : Nat) (q : String)
    (hlen : notes.length = 3 ∨ notes.length = 4)
    (hi : inversionIdx notes = some i)
    (hq : chordsGet (gapsKey (intervalsOf (rotFix i notes))) = some q) :
    ((processNotes notes).1 = Except.ok
      (some (if i = 0 then headName (rotFix i notes) ++ " " ++ q
        else headName (rotFix i notes) ++ " " ++ q ++ " (" ++ nth i ++ " inversion)"),
       some ((rotFix i notes).map (fun n => n.name))))
    ∧ rotFix i notes = rotR^[i] notes
    ∧ resolve "E G C" =
        Except.ok (some "C major triad (1st inversion)", some ["C", "E", "G"]) := by
  have hlt : i < notes.length := inversionIdx_lt notes i hi
  refine ⟨?_, ?_, by rfl⟩
  · rw [processNotes_chord notes hlen,
      chordInfo_eq_of_some notes i q hi (by simpa [rotFix] using hq)]
    by_cases h0 : i = 0 <;> simp [h0, rotFix]
  · exact rotFix_eq_iter notes i hlen hlt

/-- C3 witness: the general theorem applied to the parsed notes of
"E G C" at rotation index 1 and quality "major triad". -/
theorem chord_name_inversion_witness :
    (processNotes [⟨"E", 2, 4, 4⟩, ⟨"G", 4, 7, 7⟩, ⟨"C", 0, 0, 0⟩]).1 =
      Except.ok (some "C major triad (1st inversion)", some ["C", "E", "G"]) := by
  have h := chord_name_inversion [⟨"E", 2, 4, 4⟩, ⟨"G", 4, 7, 7⟩, ⟨"C", 0, 0, 0⟩]
    1 "major triad" (Or.inl rfl) (by rfl) (by rfl)
  simpa using h.1

/-! ### Diatonic rotation uniqueness (claims C8 and C4) -/

lemma rotR_cons3 {α : Type} (a b c : α) : rotR [a, b, c] = [c, a, b] := rfl

lemma rotR_cons4 {α : Type} (a b c d : α) : rotR [a, b, c, d] = [d, a, b, c] := rfl

lemma diaAt_three (r x y z : Nat) :
    diaAt r [x, y, z] ↔ rebaseInt (rotR^[r] [x, y, z]) = [0, 2, 4] := Iff.rfl

lemma diaAt_four (r x y z w : Nat) :
    diaAt r [x, y, z, w] ↔ rebaseInt (rotR^[r] [x, y, z, w]) = [0, 2, 4, 6] := Iff.rfl

/-- For a re-basing origin below 7, the JS computation
`(i - s + 7) % 7` agrees with the natural-number remainder. -/
lemma rebase_lt7 (i s : Nat) (hs : s < 7) :
    ((i : Int) - s + 7).tmod 7 = ((i + 7 - s) % 7 : Nat) := by
  rw [Int.tmod_eq_emod (by omega) (by norm_num)]
  omega

/-- At most one rotation of a three- or four-element letter-index list
(entries below 7) re-bases to the stacked-thirds pattern. -/
lemma dia_unique (l : List Nat) (h7 : ∀ x ∈ l, x < 7)
    (hlen : l.length = 3 ∨ l.length = 4) :
    ∀ r s, r < l.length → s < l.length → diaAt r l → diaAt s l → r = s := by
  rcases hlen with h3 | h4
  · obtain ⟨x, y, z, rfl⟩ := List.length_eq_three.mp h3
    have hx : x < 7 := h7 x (by simp)
    have hy : y < 7 := h7 y (by simp)
    have hz : z < 7 := h7 z (by simp)
    have hrx := fun i => rebase_lt7 i x hx
    have hry := fun i => rebase_lt7 i y hy
    have hrz := fun i => rebase_lt7 i z hz
    intro r s hr hs hdr hds
    simp only [List.length_cons, List.length_nil] at hr hs
    rw [diaAt_three] at hdr hds
    interval_cases r <;> interval_cases s <;>
      first
      | rfl
      | (exfalso
         simp [Function.iterate_succ_apply, rotR_cons3, rebaseInt, hrx, hry, hrz]
           at hdr hds
         omega)
  · match l, h4 with
    | [x, y, z, w], _ =>
      have hx : x < 7 := h7 x (by simp)
      have hy : y < 7 := h7 y (by simp)
      have hz : z < 7 := h7 z (by simp)
      have hw : w < 7 := h7 w (by simp)
      have hrx := fun i => rebase_lt7 i x hx
      have hry := fun i => rebase_lt7 i y hy
      have hrz := fun i => rebase_lt7 i z hz
      have hrw := fun i => rebase_lt7 i w hw
      intro r s hr hs hdr hds
      simp only [List.length_cons, List.length_nil] at hr hs
      rw [diaAt_four] at hdr hds
      interval_cases r <;> interval_cases s <;>
        first
        | rfl
        | (exfalso
           simp [Function.iterate_succ_apply, rotR_cons4, rebaseInt, hrx, hry, hrz, hrw]
             at hdr hds
           omega)

/-! ### Specification of the `inversion` loop -/

lemma invGo_none_iff (b : List Int) (fuel : Nat) :
    ∀ (idxs : List Nat) (j : Nat),
      (invGo b fuel idxs j = none ↔
        ∀ k, k < fuel → rebaseInt (rotR^[k] idxs) ≠ b) := by
  induction fuel with
  | zero => intro idxs j; simp [invGo]
  | succ n ih =>
    intro idxs j
    simp only [invGo]
    split
    · rename_i hdia
      constructor
      · intro h; simp at h
      · intro h
        exact absurd (by simpa using hdia) (h 0 (Nat.succ_pos n))
    · rename_i hdia
      rw [ih (rotR idxs) (j + 1)]
      constructor
      · intro h k hk
        match k with
        | 0 => simpa using hdia
        | k + 1 =>
          have hh := h k (by omega)
          rw [Function.iterate_succ_apply]
          exact hh
      · intro h k hk
        have hh := h (k + 1) (by omega)
        rw [Function.iterate_succ_apply] at hh
        exact hh

lemma invGo_some_spec (b : List Int) (fuel : Nat) :
    ∀ (idxs : List Nat) (j i : Nat), invGo b fuel idxs j = some i →
      j ≤ i ∧ i - j < fuel ∧ rebaseInt (rotR^[i - j] idxs) = b := by
  induction fuel with
  | zero => intro idxs j i h; simp [invGo] at h
  | succ n ih =>
    intro idxs j i h
    simp only [invGo] at h
    split at h
    · rename_i hdia
      have hji : j = i := Option.some.inj h
      subst hji
      exact ⟨Nat.le_refl j, by omega, by simpa using hdia⟩
    · obtain ⟨h1, h2, h3⟩ := ih (rotR idxs) (j + 1) i h
      refine ⟨by omega, by omega, ?_⟩
      rw [show i - j = (i - (j + 1)) + 1 by omega, Function.iterate_succ_apply]
      exact h3

lemma invGo_first (b : List Int) (fuel : Nat) :
    ∀ (idxs : List Nat) (j k : Nat), k < fuel →
      rebaseInt (rotR^[k] idxs) = b →
      (∀ m, m < k → rebaseInt (rotR^[m] idxs) ≠ b) →
      invGo b fuel idxs j = some (j + k) := by
  induction fuel with
  | zero => intro idxs j k hk; omega
  | succ n ih =>
    intro idxs j k hk hdia hmin
    simp only [invGo]
    split
    · rename_i hdia0
      match k with
      | 0 => rfl
      | k + 1 => exact absurd (by simpa using hdia0) (hmin 0 (Nat.succ_pos k))
    · rename_i hdia0
      match k with
      | 0 => exact absurd (by simpa using hdia) hdia0
      | k + 1 =>
        rw [show j + (k + 1) = (j + 1) + k by omega]
        refine ih (rotR idxs) (j + 1) k (by omega) ?_ ?_
        · rw [← Function.iterate_succ_apply]
          exact hdia
        · intro m hm
          rw [← Function.iterate_succ_apply]
          exact hmin (m + 1) (by omega)

lemma inversionIdx_none_iff (notes : List Note) :
    inversionIdx notes = none ↔
      ∀ k, k < notes.length → ¬ diaAt k (notes.map (fun n => n.letter_index)) := by
  unfold inversionIdx
  dsimp only
  rw [invGo_none_iff]
  unfold diaAt
  simp [List.length_map]

lemma inversionIdx_some_spec (notes : List Note) (i : Nat)
    (h : inversionIdx notes = some i) :
    i < notes.length ∧ diaAt i (notes.map (fun n => n.letter_index)) := by
  unfold inversionIdx at h
  dsimp only at h
  obtain ⟨h1, h2, h3⟩ := invGo_some_spec _ _ _ _ _ h
  simp only [List.length_map] at h2
  refine ⟨by omega, ?_⟩
  unfold diaAt
  simp only [List.length_map]
  simpa using h3

lemma inversionIdx_of_first (notes : List Note) (k : Nat)
    (hk : k < notes.length)
    (hdia : diaAt k (notes.map (fun n => n.letter_index)))
    (hmin : ∀ m, m < k → ¬ diaAt m (notes.map (fun n => n.letter_index))) :
    inversionIdx notes = some k := by
  unfold inversionIdx
  dsimp only
  have h := invGo_first (stackPattern (notes.map (fun n => n.letter_index)).length)
    (notes.map (fun n => n.letter_index)).length
    (notes.map (fun n => n.letter_index)) 0 k
    (by simpa [List.length_map] using hk)
    (by unfold diaAt at hdia; simpa [List.length_map] using hdia)
    (by
      intro m hm hcon
      exact hmin m hm (by unfold diaAt; simpa [List.length_map] using hcon))
  simpa using h

/-! ### Claim C8 -/

/-- C8: for letter-index sequences of length 3 or 4 with entries in
[0,6], at most one rotation re-bases (relative to its first element,
modulo 7) to the stacked-thirds pattern `[0,2,4]` / `[0,2,4,6]`; hence the
diatonic rotation found by the inversion search is unique when it exists. -/
theorem diatonic_rotation_unique (l : List Nat) (h7 : ∀ x ∈ l, x < 7)
    (hlen : l.length = 3 ∨ l.length = 4) :
    ∀ r s, r < l.length → s < l.length → diaAt r l → diaAt s l → r = s :=
  dia_unique l h7 hlen

/-- C8 witness: the hypotheses are satisfiable, e.g. on the letter indices
`[2, 4, 0]` of "E G C", whose unique diatonic rotation is index 1. -/
theorem diatonic_rotation_unique_witness : (1 : Nat) = 1 :=
  diatonic_rotation_unique [2, 4, 0] (by decide) (Or.inl rfl) 1 1
    (by decide) (by decide) (by decide) (by decide)

/-! ### Claim C4 -/

/-- On the chord path, `processNotes` errors with "Invalid chord" exactly
when `chordInfo` does. -/
lemma processNotes_chord_error (notes : List Note)
    (hlen : notes.length = 3 ∨ notes.length = 4) :
    (processNotes notes).1 = Except.error "Invalid chord" ↔
      (chordInfo notes).1 = Except.error "Invalid chord" := by
  rw [processNotes_chord notes hlen]
  rcases hc : (chordInfo notes).1 with e | ⟨n, c⟩ <;> simp [hc]

/-- If the inversion search succeeded but `chordInfo` still failed, the
chord-table lookup at the matched arrangement missed. -/
lemma chordInfo_error_of_some (notes : List Note) (i : Nat)
    (hi : inversionIdx notes = some i)
    (herr : (chordInfo notes).1 = Except.error "Invalid chord") :
    chordsGet (gapsKey (intervalsOf (rotFix i notes))) = none := by
  unfold chordInfo at herr
  rw [hi] at herr
  dsimp only at herr
  rcases hg : chordsGet (gapsKey (intervalsOf
      (notes.drop (notes.length - i) ++ notes.take (notes.length - i)))) with _ | q
  · simpa [rotFix] using hg
  · rw [hg] at herr
    dsimp only at herr
    split at herr <;> simp at herr

/-- C4: a three- or four-note sequence fails with "Invalid chord" iff no
rotation is simultaneously diatonically stacked and a chord-table hit;
and every rotation satisfying both is the one the search accepts (it is
unique, so it is in particular the first in the search order), upon which
`processNotes` succeeds. -/
theorem invalid_chord_iff (notes : List Note)
    (hlen : notes.length = 3 ∨ notes.length = 4)
    (h7 : ∀ n ∈ notes, n.letter_index < 7) :
    ((processNotes notes).1 = Except.error "Invalid chord" ↔
      ¬ ∃ r, r < notes.length ∧ bothAt r notes)
    ∧ (∀ r, r < notes.length → bothAt r notes →
        inversionIdx notes = some r ∧ ∃ v, (processNotes notes).1 = Except.ok v) := by
  have h7' : ∀ x ∈ notes.map (fun n => n.letter_index), x < 7 := by
    intro x hx
    obtain ⟨n, hn, rfl⟩ := List.mem_map.mp hx
    exact h7 n hn
  have hlen' : (notes.map (fun n => n.letter_index)).length = 3 ∨
      (notes.map (fun n => n.letter_index)).length = 4 := by
    simpa [List.length_map] using hlen
  have uniq : ∀ r s, r < notes.length → s < notes.length →
      diaAt r (notes.map (fun n => n.letter_index)) →
      diaAt s (notes.map (fun n => n.letter_index)) → r = s := by
    intro r s hr hs h1 h2
    exact dia_unique _ h7' hlen' r s (by simpa [List.length_map] using hr)
      (by simpa [List.length_map] using hs) h1 h2
  constructor
  · constructor
    · intro herr
      rintro ⟨r, hr, hdia_r, hsome_r⟩
      rcases hinv : inversionIdx notes with _ | i
      · exact (inversionIdx_none_iff notes).mp hinv r hr hdia_r
      · obtain ⟨hlt, hdia_i⟩ := inversionIdx_some_spec notes i hinv
        have hri : r = i := uniq r i hr hlt hdia_r hdia_i
        subst hri
        have hnone := chordInfo_error_of_some notes r hinv
          ((processNotes_chord_error notes hlen).mp herr)
        rw [rotFix_eq_iter notes r hlen hr] at hnone
        rw [hnone] at hsome_r
        simp at hsome_r
    · intro hno
      rcases hinv : inversionIdx notes with _ | i
      · rw [processNotes_chord_error notes hlen]
        unfold chordInfo
        rw [hinv]
      · obtain ⟨hlt, hdia_i⟩ := inversionIdx_some_spec notes i hinv
        rcases hg : chordsGet (gapsKey (intervalsOf (rotFix i notes))) with _ | q
        · rw [processNotes_chord_error notes hlen]
          unfold chordInfo
          rw [hinv]
          dsimp only
          rw [show chordsGet (gapsKey (intervalsOf
            (notes.drop (notes.length - i) ++ notes.take (notes.length - i)))) = none
            from by simpa [rotFix] using hg]
        · exfalso
          refine hno ⟨i, hlt, hdia_i, ?_⟩
          rw [← rotFix_eq_iter notes i hlen hlt, hg]
          rfl
  · intro r hr hboth
    obtain ⟨hdia_r, hsome_r⟩ := hboth
    have hfirst : ∀ m, m < r → ¬ diaAt m (notes.map (fun n => n.letter_index)) := by
      intro m hm hdm
      have := uniq m r (by omega) hr hdm hdia_r
      omega
    have hinv := inversionIdx_of_first notes r hr hdia_r hfirst
    obtain ⟨q, hq⟩ := Option.isSome_iff_exists.mp hsome_r
    rw [← rotFix_eq_iter notes r hlen hr] at hq
    refine ⟨hinv, ?_⟩
    exact ⟨_, by rw [processNotes_chord notes hlen,
      chordInfo_eq_of_some notes r q hinv (by simpa [rotFix] using hq)]⟩

/-- C4 witness: on the parsed notes of "E G C", rotation 1 satisfies both
conditions, the search accepts it, and `processNotes` succeeds. -/
theorem invalid_chord_iff_witness :
    inversionIdx [⟨"E", 2, 4, 4⟩, ⟨"G", 4, 7, 7⟩, ⟨"C", 0, 0, 0⟩] = some 1
    ∧ ∃ v, (processNotes [⟨"E", 2, 4, 4⟩, ⟨"G", 4, 7, 7⟩, ⟨"C", 0, 0, 0⟩]).1 =
        Except.ok v :=
  (invalid_chord_iff [⟨"E", 2, 4, 4⟩, ⟨"G", 4, 7, 7⟩, ⟨"C", 0, 0, 0⟩]
    (Or.inl rfl) (by decide)).2 1 (by decide) (by constructor <;> decide)

/-! ### Claim C5 -/

/-- C5: on exactly two notes, `processNotes` returns the pair whose name is
the `INTERVALS` entry at `(b.pitch_class − a.pitch_class + 12) % 12`
(directional, JS truncated remainder) and whose components are absent; in
particular "C G" resolves to "Perfect fifth" and "G C" to "Perfect fourth". -/
theorem processNotes_two_directional (a b : Note) :
    (processNotes [a, b]).1 =
      Except.ok (intervalsGet ((b.pitch_class - a.pitch_class + 12).tmod 12), none)
    ∧ resolve "C G" = Except.ok (some "Perfect fifth", none)
    ∧ resolve "G C" = Except.ok (some "Perfect fourth", none) := by
  refine ⟨rfl, by rfl, by rfl⟩

/-! ### Claim C9 -/

/-- C9: `processNotes` fails with the usage message exactly for input
sequences of length 0 or of length at least 5. -/
theorem processNotes_usage_error (notes : List Note) :
    (processNotes notes).1 =
      Except.error "Only up to four notes (seventh chords) supported"
    ↔ (notes.length = 0 ∨ 5 ≤ notes.length) := by
  match notes with
  | [] => simp [processNotes]
  | [a] => simp [processNotes]
  | [a, b] => simp [processNotes]
  | [a, b, c] =>
    rw [processNotes_chord [a, b, c] (Or.inl rfl)]
    constructor
    · intro h
      rcases hc : (chordInfo [a, b, c]).1 with e | r
      · rw [hc] at h
        have := chordInfo_error_msg [a, b, c] e hc
        simp_all
      · rw [hc] at h
        rcases r with ⟨n, cs⟩
        simp at h
    · intro h
      simp at h
  | [a, b, c, d] =>
    rw [processNotes_chord [a, b, c, d] (Or.inr rfl)]
    constructor
    · intro h
      rcases hc : (chordInfo [a, b, c, d]).1 with e | r
      · rw [hc] at h
        have := chordInfo_error_msg [a, b, c, d] e hc
        simp_all
      · rw [hc] at h
        rcases r with ⟨n, cs⟩
        simp at h
    · intro h
      simp at h
  | a :: b :: c :: d :: e :: tl =>
    constructor
    · intro _
      right
      simp only [List.length_cons]
      omega
    · intro _
      rfl

/-! ### Claim C6 -/

/-- C6: for a whitespace-free token, `Note.parse` fails with the letter
syntax error whenever the first character is not a key of `BASE_NOTES`
(the uppercase letters A–G), and with the accidentals syntax error whenever
the first character is valid but some later character is neither `#` nor
`b`. -/
theorem parse_syntax_errors (s : String) (c : Char) (cs : List Char)
    (hdata : s.data = c :: cs)
    (hc : ¬ c.isWhitespace) (hcs : ∀ d ∈ cs, ¬ d.isWhitespace) :
    (baseNotesGet c = none →
      Note.parse s = Except.error ("Invalid note letter in \"" ++ s ++ "\""))
    ∧ (baseNotesGet c ≠ none → (∃ d ∈ cs, d ≠ '#' ∧ d ≠ 'b') →
      Note.parse s = Except.error ("Invalid accidentals in \"" ++ s ++ "\"")) := by
  have htw : cs.takeWhile (fun d => !d.isWhitespace) = cs :=
    List.takeWhile_eq_self_iff.mpr (by intro d hd; simp [hcs d hd])
  have hre : reMatch s.data = some (c, cs) := by
    rw [hdata]
    simp only [reMatch]
    simp [hc, htw]
  constructor
  · intro hb
    simp only [Note.parse, hre, hb]
  · intro hb hbad
    obtain ⟨p, hp⟩ := Option.ne_none_iff_exists'.mp hb
    obtain ⟨bc, li⟩ := p
    have hany : cs.any (fun d => d != '#' && d != 'b') = true := by
      obtain ⟨d, hd, h1, h2⟩ := hbad
      exact List.any_eq_true.mpr ⟨d, hd, by simp [h1, h2]⟩
    simp [Note.parse, hre, hp, hany]

/-- C6 witness: parsing the token "H" hits the letter error. -/
theorem parse_syntax_errors_witness :
    Note.parse "H" = Except.error ("Invalid note letter in \"" ++ "H" ++ "\"") :=
  (parse_syntax_errors "H" 'H' [] rfl (by decide) (by intro d hd; simp at hd)).1 (by decide)

/-! ### Claim C10 -/

/-- C10: in `Note.parse` the letter check precedes the accidental check:
an invalid first character always produces the letter error, even when the
remaining characters are also invalid accidentals, and the accidentals
error can only occur when the first character is a valid letter. -/
theorem parse_letter_check_first (s : String) (c : Char) (cs : List Char)
    (hdata : s.data = c :: cs)
    (hc : ¬ c.isWhitespace) (hcs : ∀ d ∈ cs, ¬ d.isWhitespace) :
    (baseNotesGet c = none →
      Note.parse s = Except.error ("Invalid note letter in \"" ++ s ++ "\""))
    ∧ (Note.parse s = Except.error ("Invalid accidentals in \"" ++ s ++ "\"") →
      baseNotesGet c ≠ none) := by
  have htw : cs.takeWhile (fun d => !d.isWhitespace) = cs :=
    List.takeWhile_eq_self_iff.mpr (by intro d hd; simp [hcs d hd])
  have hre : reMatch s.data = some (c, cs) := by
    rw [hdata]
    simp only [reMatch]
    simp [hc, htw]
  have hletter : baseNotesGet c = none →
      Note.parse s = Except.error ("Invalid note letter in \"" ++ s ++ "\"") := by
    intro hb
    simp only [Note.parse, hre, hb]
  refine ⟨hletter, ?_⟩
  intro hacc
  intro hb
  rw [hletter hb] at hacc
  have heq : ("Invalid note letter in \"" ++ s ++ "\"" : String) =
      "Invalid accidentals in \"" ++ s ++ "\"" :=
    Except.error.inj hacc
  have hdataEq := congrArg String.data heq
  simp only [String.data_append] at hdataEq
  have h1 : ("Invalid note letter in \"".data ++ s.data) ++ "\"".data =
      ("Invalid accidentals in \"".data ++ s.data) ++ "\"".data := by
    rw [List.append_assoc, List.append_assoc]
    exact hdataEq
  have h2 := (List.append_inj' h1 rfl).1
  have h3 := List.append_inj_left h2 (by decide)
  exact absurd h3 (by decide)

/-- C10 witness: a token whose first character is invalid and whose tail
also contains an invalid accidental still reports the letter error. -/
theorem parse_letter_check_first_witness :
    Note.parse "H$" = Except.error ("Invalid note letter in \"" ++ "H$" ++ "\"") :=
  (parse_letter_check_first "H$" 'H' ['$'] rfl (by decide)
    (by intro d hd; simp at hd; simp [hd])).1 (by decide)

/-! ### Claim C7 -/

/-- A semitone gap of `g` (for `0 ≤ g < 12`) between consecutive pitch
classes is recovered exactly by the `(b − a + 12) % 12` computation. -/
lemma gap_shift (a g : Int) (h0 : 0 ≤ g) (h12 : g < 12) :
    (a + g - a + 12).tmod 12 = g := by
  rw [show a + g - a + 12 = g + 12 by ring,
    Int.tmod_eq_emod (by omega) (by omega)]
  omega

lemma gap2 (a : Int) : (a + 2 - a + 12).tmod 12 = 2 :=
  gap_shift a 2 (by norm_num) (by norm_num)

lemma gap3 (a : Int) : (a + 3 - a + 12).tmod 12 = 3 :=
  gap_shift a 3 (by norm_num) (by norm_num)

lemma gap4 (a : Int) : (a + 4 - a + 12).tmod 12 = 4 :=
  gap_shift a 4 (by norm_num) (by norm_num)

/-- If the original arrangement already re-bases to the stacked-thirds
pattern, the inversion search stops immediately with index 0. -/
lemma inversionIdx_zero (notes : List Note) (hpos : notes ≠ [])
    (hdia : rebaseInt (notes.map (fun n => n.letter_index)) =
      stackPattern notes.length) :
    inversionIdx notes = some 0 := by
  match notes, hpos with
  | n :: ns, _ =>
    unfold inversionIdx
    dsimp only
    simp only [List.length_map, List.length_cons] at hdia ⊢
    simp only [List.map_cons, List.length_cons]
    rw [invGo]
    rw [if_pos]
    simpa using hdia

/-- Root-position output of `chordInfo`: inversion index 0 with a chord
table hit yields the un-suffixed name over the original order. -/
lemma chordInfo_root_position (notes : List Note) (q : String)
    (hinv : inversionIdx notes = some 0)
    (hq : chordsGet (gapsKey (intervalsOf notes)) = some q) :
    (chordInfo notes).1 =
      Except.ok (headName notes ++ " " ++ q, notes.map (fun n => n.name)) := by
  have h := chordInfo_eq_of_some notes 0 q hinv
    (by simpa [List.drop_length, List.take_length] using hq)
  simpa [List.drop_length, List.take_length] using h

/-- The letter indices of a canonical triad spelling re-base to the
stacked-thirds pattern at rotation 0. -/
lemma rebase_canonical3 (r : Nat) (h : r < 7) :
    rebaseInt [r, (r + 2) % 7, ((r + 2) % 7 + 2) % 7] = stackPattern 3 := by
  interval_cases r <;> decide

/-- The letter indices of a canonical seventh-chord spelling re-base to
the stacked-thirds pattern at rotation 0. -/
lemma rebase_canonical4 (r : Nat) (h : r < 7) :
    rebaseInt [r, (r + 2) % 7, ((r + 2) % 7 + 2) % 7,
      (((r + 2) % 7 + 2) % 7 + 2) % 7] = stackPattern 4 := by
  interval_cases r <;> decide

/-- C7: resolving the canonical root-position spelling of any recognized
chord shape on any root (with a valid letter index) reproduces the
shape's quality name prefixed by the root's name, with no inversion
suffix, and the components in root-position order; in particular "C E G"
resolves to "C major triad" with components C, E, G. -/
theorem chord_round_trip (root : Note) (g : List Int) (q : String)
    (hshape : (g, q) ∈ SHAPES) (hroot : root.letter_index < 7) :
    ((processNotes (canonicalChord root g)).1 = Except.ok
      (some (root.name ++ " " ++ q),
       some ((canonicalChord root g).map (fun n => n.name))))
    ∧ resolve "C E G" = Except.ok (some "C major triad", some ["C", "E", "G"]) := by
  refine ⟨?_, by rfl⟩
  obtain ⟨nm, r, bc, pc⟩ := root
  dsimp only at hroot
  fin_cases hshape <;>
  · refine (processNotes_chord _ (by first | exact Or.inl rfl | exact Or.inr rfl)).trans ?_
    rw [chordInfo_root_position _ _
      (inversionIdx_zero _ (by simp [canonicalChord, buildRest])
        (by first
          | exact rebase_canonical3 _ hroot
          | exact rebase_canonical4 _ hroot))
      (by
        simp only [canonicalChord, buildRest, spellNote, letterData, intervalsOf,
          gap2, gap3, gap4]
        rfl)]
    rfl

/-- C7 witness: the round trip applied to the major triad on the root
note C. -/
theorem chord_round_trip_witness :
    (processNotes (canonicalChord ⟨"C", 0, 0, 0⟩ [4, 3])).1 = Except.ok
      (some ("C" ++ " " ++ "major triad"),
       some ((canonicalChord ⟨"C", 0, 0, 0⟩ [4, 3]).map (fun n => n.name))) :=
  (chord_round_trip ⟨"C", 0, 0, 0⟩ [4, 3] "major triad"
    (by decide) (by decide)).1

end ChordSolver
